import Mathlib

/-!
# Verification of the kappa compression-complexity engine

Shallow embedding of the `kappa` package (spatial binning via a Hilbert
curve, LZ77 factorization, CID normalization harness) together with proofs
of the specified properties.

* `src/kappa/binning.py` — `bin_particles_3d` (3D histogram + Hilbert-curve
  readout), embedded below as `binParticles3d`.
* `src/kappa/lz_entropy.py` — `compute_cid` / `compute_normalized_cid`,
  embedded as `computeNormalizedCid`; the factorization itself is performed
  by a C++ tool (`cpp/lz77/lz_entropy`) that is not part of the Python
  sources, so the Factorizer and ComplexityEstimator are modelled from the
  specification (§4.2, §4.3).
* The Hilbert-curve mapping is the `hilbertcurve` package's
  `point_from_distance` (Skilling's transform), embedded bit-for-bit,
  including the zero-padded (but never truncated) binary-string transpose.
-/

namespace Kappa

/-! ## Factorizer (modelled from the spec, §4.2)

The factorization engine lives in `cpp/lz77/lz_entropy`, outside the Python
sources.  The definitions below follow §4.2 of the specification: greedy
longest-match LZ77 parsing over the entire already-consumed prefix, a copy
factor when the longest match has length ≥ 2 (tie-break: most recent
occurrence, i.e. smallest offset), a literal factor otherwise. -/

/-- A factor of the greedy LZ77 parse: either a literal symbol or a copy
`(offset, length)` referencing previously emitted output. -/
inductive Factor where
  | lit : ℕ → Factor
  | copy : ℕ → ℕ → Factor
  deriving DecidableEq, Repr

/-- Modelled from the spec: length of the longest common extension of the
occurrence at `j` and the current position `i` (the match may run past `i`,
allowing the classic self-referential overlapping copies). -/
def matchLen (s : List ℕ) (j i : ℕ) : ℕ :=
  if h : i < s.length ∧ s.getD j 0 = s.getD i 0 then
    matchLen s (j + 1) (i + 1) + 1
  else 0
termination_by s.length - i
decreasing_by omega

/-- Modelled from the spec: best previous match for position `i`, as a pair
`(length, source position)`.  Scanning `j = 0, …, i-1` and replacing the
current best whenever the new candidate is at least as long implements the
tie-break rule "among equal lengths choose the most recent occurrence". -/
def bestMatch (s : List ℕ) (i : ℕ) : ℕ × ℕ :=
  (List.range i).foldl
    (fun best j => if best.1 ≤ matchLen s j i then (matchLen s j i, j) else best)
    (0, 0)

/-- Modelled from the spec: greedy LZ77 parse of the suffix of `s` starting
at position `i`. -/
def factorizeFrom (s : List ℕ) (i : ℕ) : List Factor :=
  if hi : i < s.length then
    if h2 : 2 ≤ (bestMatch s i).1 then
      Factor.copy (i - (bestMatch s i).2) (bestMatch s i).1 ::
        factorizeFrom s (i + (bestMatch s i).1)
    else
      Factor.lit (s.getD i 0) :: factorizeFrom s (i + 1)
  else []
termination_by s.length - i
decreasing_by all_goals omega

/-- Modelled from the spec: greedy LZ77 factorization of a symbol sequence. -/
def factorize (s : List ℕ) : List Factor := factorizeFrom s 0

/-- Resolve a copy factor against already-emitted output, one symbol at a
time (so overlapping self-referential copies behave as in classic LZ77). -/
def copyResolve (out : List ℕ) (o : ℕ) : ℕ → List ℕ
  | 0 => out
  | L + 1 => copyResolve (out ++ [out.getD (out.length - o) 0]) o L

/-- Append the expansion of one factor to the already-emitted output. -/
def decodeStep (out : List ℕ) : Factor → List ℕ
  | .lit c => out ++ [c]
  | .copy o L => copyResolve out o L

/-- Concatenate the factors in order, resolving copies against the
already-emitted output. -/
def decodeFactors (fs : List Factor) : List ℕ := fs.foldl decodeStep []

/-! ### Properties of the factorizer -/

theorem matchLen_spec (s : List ℕ) (j i : ℕ) :
    ∀ t < matchLen s j i, i + t < s.length ∧ s.getD (j + t) 0 = s.getD (i + t) 0 := by
  induction j, i using matchLen.induct s with
  | case1 j i h ih =>
    intro t ht
    rw [matchLen, dif_pos h] at ht
    match t with
    | 0 => refine ⟨by omega, ?_⟩; simpa using h.2
    | t + 1 =>
      have := ih t (by omega)
      constructor
      · omega
      · have h1 : j + (t + 1) = j + 1 + t := by omega
        have h2 : i + (t + 1) = i + 1 + t := by omega
        rw [h1, h2]
        exact this.2
  | case2 j i h =>
    intro t ht
    rw [matchLen, dif_neg h] at ht
    omega

theorem bestMatch_cases (s : List ℕ) (i : ℕ) :
    bestMatch s i = (0, 0) ∨ ∃ j < i, bestMatch s i = (matchLen s j i, j) := by
  rw [bestMatch]
  have main : ∀ (l : List ℕ) (init : ℕ × ℕ),
      (∀ j ∈ l, j < i) →
      (init = (0, 0) ∨ ∃ j < i, init = (matchLen s j i, j)) →
      (l.foldl (fun best j =>
          if best.1 ≤ matchLen s j i then (matchLen s j i, j) else best) init = (0, 0) ∨
        ∃ j < i, l.foldl (fun best j =>
          if best.1 ≤ matchLen s j i then (matchLen s j i, j) else best) init =
            (matchLen s j i, j)) := by
    intro l
    induction l with
    | nil => intro init _ h0; simpa using h0
    | cons a l ih =>
      intro init hmem h0
      simp only [List.foldl_cons]
      apply ih
      · intro j hj; exact hmem j (List.mem_cons_of_mem a hj)
      · by_cases hle : init.1 ≤ matchLen s a i
        · rw [if_pos hle]
          exact Or.inr ⟨a, hmem a (List.mem_cons_self a l), rfl⟩
        · rw [if_neg hle]
          exact h0
  apply main
  · intro j hj; simpa using List.mem_range.mp hj
  · exact Or.inl rfl

/-- If a copy factor is emitted, it comes from an actual match. -/
theorem bestMatch_of_two_le (s : List ℕ) (i : ℕ) (h2 : 2 ≤ (bestMatch s i).1) :
    ∃ j < i, bestMatch s i = (matchLen s j i, j) := by
  rcases bestMatch_cases s i with h | h
  · rw [h] at h2; omega
  · exact h

theorem take_append_getD (s : List ℕ) (m : ℕ) (hm : m < s.length) :
    s.take m ++ [s.getD m 0] = s.take (m + 1) := by
  rw [List.take_succ]
  have : s[m]? = some (s.getD m 0) := by
    rw [List.getD_eq_getElem?_getD, List.getElem?_eq_getElem hm]
    simp [List.getElem?_eq_getElem hm]
  rw [this]
  simp

theorem getD_take (s : List ℕ) (k m : ℕ) (h : k < m) :
    (s.take m).getD k 0 = s.getD k 0 := by
  rw [List.getD_eq_getElem?_getD, List.getD_eq_getElem?_getD, List.getElem?_take_of_lt h]

/-- Resolving a copy factor of length `L` whose source matches the text
extends `s.take (i+t)` to `s.take (i+t+L)`. -/
theorem copyResolve_take (s : List ℕ) (i j : ℕ) (hj : j < i) :
    ∀ L t, (∀ u < t + L, i + u < s.length ∧ s.getD (j + u) 0 = s.getD (i + u) 0) →
      copyResolve (s.take (i + t)) (i - j) L = s.take (i + t + L) := by
  intro L
  induction L with
  | zero => intro t _; simp [copyResolve]
  | succ L ih =>
    intro t hmatch
    have hit : i + t < s.length := (hmatch t (by omega)).1
    have hlen : (s.take (i + t)).length = i + t := by
      rw [List.length_take]; omega
    rw [copyResolve]
    have hidx : (s.take (i + t)).length - (i - j) = j + t := by omega
    have hval : (s.take (i + t)).getD ((s.take (i + t)).length - (i - j)) 0 =
        s.getD (i + t) 0 := by
      rw [hidx, getD_take s (j + t) (i + t) (by omega)]
      exact (hmatch t (by omega)).2
    rw [hval, take_append_getD s (i + t) hit]
    have := ih (t + 1) (by intro u hu; exact hmatch u (by omega))
    rw [show i + t + 1 = i + (t + 1) by omega]
    rw [this]
    congr 1
    omega

/-- Invariant of the greedy parse: decoding the factors produced from
position `i` on top of the already-recovered prefix `s.take i` recovers all
of `s`. -/
theorem decodeFrom_eq (s : List ℕ) (i : ℕ) :
    i ≤ s.length → (factorizeFrom s i).foldl decodeStep (s.take i) = s := by
  induction i using factorizeFrom.induct s with
  | case1 i hi h2 ih =>
    intro _
    rw [factorizeFrom, dif_pos hi, dif_pos h2]
    obtain ⟨j, hj, hbm⟩ := bestMatch_of_two_le s i h2
    simp only [List.foldl_cons]
    have hL : (bestMatch s i).1 = matchLen s j i := by rw [hbm]
    have hJ : (bestMatch s i).2 = j := by rw [hbm]
    have hspec := matchLen_spec s j i
    have hstep : decodeStep (s.take i) (Factor.copy (i - (bestMatch s i).2) (bestMatch s i).1) =
        s.take (i + (bestMatch s i).1) := by
      rw [decodeStep, hL, hJ]
      have := copyResolve_take s i j hj (matchLen s j i) 0
        (by intro u hu; exact hspec u (by omega))
      simpa using this
    rw [hstep]
    apply ih
    have := hspec ((bestMatch s i).1 - 1) (by omega)
    omega
  | case2 i hi h2 ih =>
    intro _
    rw [factorizeFrom, dif_pos hi, dif_neg h2]
    simp only [List.foldl_cons]
    rw [decodeStep, take_append_getD s i hi]
    exact ih (by omega)
  | case3 i hi =>
    intro hle
    rw [factorizeFrom, dif_neg hi]
    simp only [List.foldl_nil]
    have : i = s.length := by omega
    rw [this, List.take_length]

/-- **C5.** Round-trip law of the greedy LZ77 factorization: concatenating
the factors in order, resolving each copy against the already-emitted
output, reconstructs the original sequence exactly, for every finite
sequence (including the empty and the one-symbol sequence). -/
theorem factorize_roundTrip (s : List ℕ) : decodeFactors (factorize s) = s := by
  have := decodeFrom_eq s 0 (by omega)
  simpa [decodeFactors, factorize] using this

/-! ## Hilbert curve mapping

`bin_particles_3d` obtains voxel coordinates from curve distances through
`HilbertCurve(p, 3).point_from_distance` of the `hilbertcurve` package
(Skilling's transform).  The package is a declared dependency whose code is
not vendored in this repository; the embedding below reproduces its
published algorithm bit for bit, including the zero-padded — but never
truncated — binary-string transpose (`_binary_repr(h, p*n)` uses
`zfill`, so distances `h ≥ 2^(3p)` yield a wider string). -/

/-- MSB-first value of the characters `i, i+3, i+6, …` of the width-`L`
binary string of `h` (the Python slice `h_bit_str[i::3]`), accumulated into
`acc`; `fuel` is an upper bound on the remaining characters making the
recursion structural. -/
def sliceGo (h L : ℕ) : ℕ → ℕ → ℕ → ℕ
  | 0, _, acc => acc
  | fuel + 1, i, acc =>
    if i < L then sliceGo h L fuel (i + 3) (2 * acc + ((h >>> (L - 1 - i)) &&& 1))
    else acc

/-- MSB-first value of the slice `h_bit_str[i::3]` of the width-`L` binary
string of `h`. -/
def sliceAux (h L i acc : ℕ) : ℕ := sliceGo h L (L - i) i acc

theorem sliceGo_fuel (h L : ℕ) :
    ∀ f₁ f₂ i acc, L - i ≤ f₁ → L - i ≤ f₂ →
      sliceGo h L f₁ i acc = sliceGo h L f₂ i acc := by
  intro f₁
  induction f₁ with
  | zero =>
    intro f₂ i acc h₁ h₂
    match f₂ with
    | 0 => rfl
    | f + 1 => rw [sliceGo, sliceGo, if_neg (by omega)]
  | succ f₁ ih =>
    intro f₂ i acc h₁ h₂
    match f₂ with
    | 0 => rw [sliceGo, sliceGo, if_neg (by omega)]
    | f + 1 =>
      rw [sliceGo, sliceGo]
      by_cases hiL : i < L
      · rw [if_pos hiL, if_pos hiL]
        exact ih f (i + 3) _ (by omega) (by omega)
      · rw [if_neg hiL, if_neg hiL]

/-- The logical recursion satisfied by `sliceAux` (matching the Python
slice semantics directly). -/
theorem sliceAux_unfold (h L i acc : ℕ) :
    sliceAux h L i acc =
      if i < L then sliceAux h L (i + 3) (2 * acc + ((h >>> (L - 1 - i)) &&& 1))
      else acc := by
  by_cases hiL : i < L
  · rw [if_pos hiL, sliceAux, sliceAux]
    obtain ⟨f, hf⟩ : ∃ f, L - i = f + 1 := ⟨L - i - 1, by omega⟩
    rw [hf, sliceGo, if_pos hiL]
    exact sliceGo_fuel h L f (L - (i + 3)) (i + 3) _ (by omega) (by omega)
  · rw [if_neg hiL, sliceAux]
    have : L - i = 0 := by omega
    rw [this, sliceGo]

/-- Bit length of `h` (width of `format(h, 'b')`, except that `blen 0 = 0`
while the Python string `"0"` has width 1; `zwidth` accounts for that),
with a structural fuel argument. -/
def blenGo : ℕ → ℕ → ℕ
  | 0, _ => 0
  | fuel + 1, h => if h = 0 then 0 else blenGo fuel (h / 2) + 1

/-- Bit length of `h`. -/
def blen (h : ℕ) : ℕ := blenGo h h

theorem blenGo_le : ∀ fuel h m, h ≤ fuel → h < 2 ^ m → blenGo fuel h ≤ m := by
  intro fuel
  induction fuel with
  | zero =>
    intro h m hf _
    have : h = 0 := by omega
    subst this
    rw [blenGo]
    omega
  | succ fuel ih =>
    intro h m hf hm
    rw [blenGo]
    by_cases h0 : h = 0
    · rw [if_pos h0]; omega
    · rw [if_neg h0]
      have hm1 : 1 ≤ m := by
        by_contra hc
        have : m = 0 := by omega
        subst this
        simp at hm
        omega
      have h2m : 2 ^ m = 2 ^ (m - 1) * 2 := by
        rw [← pow_succ]
        congr 1
        omega
      have hdiv : h / 2 < 2 ^ (m - 1) := by
        rw [Nat.div_lt_iff_lt_mul (by norm_num)]
        omega
      have := ih (h / 2) (m - 1) (by omega) hdiv
      omega

theorem blen_le (h m : ℕ) (hm : h < 2 ^ m) : blen h ≤ m :=
  blenGo_le h h m le_rfl hm

/-- Width of `format(h, 'b').zfill(3*p)`: zero-padded to `3*p` but never
truncated (`format(0, 'b') = "0"` has width 1). -/
def zwidth (p h : ℕ) : ℕ := max (max 1 (blen h)) (3 * p)

/-- `_hilbert_integer_to_transpose`: distribute the bits of the width-`zwidth`
binary string of `h` over three coordinates, slice `[i::3]` to coordinate `i`. -/
def transpose3 (p h : ℕ) : ℕ × ℕ × ℕ :=
  (sliceAux h (zwidth p h) 0 0, sliceAux h (zwidth p h) 1 0, sliceAux h (zwidth p h) 2 0)

/-- The Gray-decode phase of `point_from_distance`:
`t = x[2] >> 1; x[2] ^= x[1]; x[1] ^= x[0]; x[0] ^= t`. -/
def grayDecode3 (v : ℕ × ℕ × ℕ) : ℕ × ℕ × ℕ :=
  (v.1 ^^^ (v.2.2 >>> 1), v.2.1 ^^^ v.1, v.2.2 ^^^ v.2.1)

/-- One `(q, i)` step of the "undo excess work" loop acting on `(x[0], x[i])`:
invert (`x[0] ^= q-1`) when bit `q` of `x[i]` is set, otherwise exchange the
low bits of `x[0]` and `x[i]`. -/
def stepI (q x0 xi : ℕ) : ℕ × ℕ :=
  if xi &&& q ≠ 0 then (x0 ^^^ (q - 1), xi)
  else (x0 ^^^ ((x0 ^^^ xi) &&& (q - 1)), xi ^^^ ((x0 ^^^ xi) &&& (q - 1)))

/-- The `i = 0` step of the "undo excess work" loop: `x[0]` and `x[i]` are
the same variable, so the exchange branch is a no-op and the invert branch
flips the low bits of `x[0]`. -/
def step0 (q a : ℕ) : ℕ := (stepI q a a).1

/-- One full round of the "undo excess work" loop for a fixed `q`, visiting
`i = 2, 1, 0`. -/
def roundQ (q : ℕ) (v : ℕ × ℕ × ℕ) : ℕ × ℕ × ℕ :=
  let s2 := stepI q v.1 v.2.2
  let s1 := stepI q s2.1 v.2.1
  (step0 q s1.1, s1.2, s2.2)

/-- The `while q != z` loop of `point_from_distance`: rounds for
`q = 2, 4, …, 2^k` in increasing order. -/
def undoLoop : ℕ → ℕ × ℕ × ℕ → ℕ × ℕ × ℕ
  | 0, v => v
  | k + 1, v => roundQ (2 ^ (k + 1)) (undoLoop k v)

/-- `HilbertCurve(p, 3).point_from_distance(h)`: transpose, Gray decode,
then `p - 1` undo rounds (`z = 2 << (p-1)`, `q` starts at `2`). -/
def pointFromDistance (p h : ℕ) : ℕ × ℕ × ℕ :=
  undoLoop (p - 1) (grayDecode3 (transpose3 p h))

/-! ### The transpose is injective on in-range distances -/

/-- Structured form of the transpose on in-range distances: the low bit of
each coordinate comes from the low three bits of `h`. -/
def transposeRec : ℕ → ℕ → ℕ × ℕ × ℕ
  | 0, _ => (0, 0, 0)
  | p + 1, h =>
    let v := transposeRec p (h / 8)
    (2 * v.1 + h / 4 % 2, 2 * v.2.1 + h / 2 % 2, 2 * v.2.2 + h % 2)

/-- Inverse of `transposeRec`: reassemble the distance from the coordinate
bits. -/
def transposeInv : ℕ → ℕ × ℕ × ℕ → ℕ
  | 0, _ => 0
  | p + 1, v =>
    8 * transposeInv p (v.1 / 2, v.2.1 / 2, v.2.2 / 2) +
      4 * (v.1 % 2) + 2 * (v.2.1 % 2) + v.2.2 % 2

/-- Dropping the first character triple: the slice `[i+3::3]` of a width-`L`
string is the slice `[i::3]` of the width-`(L-3)` string of the same number. -/
theorem sliceAux_shift (h L : ℕ) :
    ∀ i acc, sliceAux h L (i + 3) acc = sliceAux h (L - 3) i acc := by
  have main : ∀ fuel i acc, L - i ≤ fuel →
      sliceAux h L (i + 3) acc = sliceAux h (L - 3) i acc := by
    intro fuel
    induction fuel with
    | zero =>
      intro i acc hfuel
      rw [sliceAux_unfold, if_neg (by omega), sliceAux_unfold, if_neg (by omega)]
    | succ fuel ih =>
      intro i acc hfuel
      by_cases hiL : i < L - 3
      · conv_lhs => rw [sliceAux_unfold]
        rw [if_pos (show i + 3 < L by omega)]
        conv_rhs => rw [sliceAux_unfold]
        rw [if_pos hiL]
        rw [show L - 1 - (i + 3) = L - 3 - 1 - i by omega]
        exact ih (i + 3) _ (by omega)
      · rw [sliceAux_unfold, if_neg (by omega), sliceAux_unfold, if_neg hiL]
  intro i acc
  exact main (L - i) i acc le_rfl

/-- Peeling the low three bits of an in-range distance out of the slices. -/
theorem sliceAux_bridge (i : ℕ) (hi : i < 3) (p : ℕ) :
    ∀ h acc, sliceAux h (3 * (p + 1)) i acc =
      2 * sliceAux (h >>> 3) (3 * p) i acc + ((h >>> (2 - i)) &&& 1) := by
  induction p with
  | zero =>
    intro h acc
    conv_lhs => rw [sliceAux_unfold]
    rw [if_pos (show i < 3 * (0 + 1) by omega)]
    conv_lhs => rw [sliceAux_unfold]
    rw [if_neg (show ¬ i + 3 < 3 * (0 + 1) by omega)]
    conv_rhs => rw [sliceAux_unfold]
    rw [if_neg (show ¬ i < 3 * 0 by omega)]
  | succ q ih =>
    intro h acc
    conv_lhs => rw [sliceAux_unfold]
    rw [if_pos (show i < 3 * (q + 1 + 1) by omega)]
    rw [sliceAux_shift h (3 * (q + 1 + 1)) i]
    rw [show (3 * (q + 1 + 1) : ℕ) - 3 = 3 * (q + 1) by omega]
    conv_rhs => rw [sliceAux_unfold]
    rw [if_pos (show i < 3 * (q + 1) by omega)]
    rw [sliceAux_shift (h >>> 3) (3 * (q + 1)) i]
    rw [show (3 * (q + 1) : ℕ) - 3 = 3 * q by omega]
    have hbit : (h >>> (3 * (q + 1 + 1) - 1 - i)) &&& 1 =
        ((h >>> 3) >>> (3 * (q + 1) - 1 - i)) &&& 1 := by
      rw [← Nat.shiftRight_add]
      congr 2
      omega
    rw [hbit]
    exact ih h _

theorem zwidth_eq (p h : ℕ) (hp : 1 ≤ p) (hh : h < 2 ^ (3 * p)) :
    zwidth p h = 3 * p := by
  have hsize : blen h ≤ 3 * p := blen_le h (3 * p) hh
  rw [zwidth]
  omega

theorem shiftRight_and_one (h k : ℕ) : (h >>> k) &&& 1 = h / 2 ^ k % 2 := by
  rw [Nat.shiftRight_eq_div_pow, Nat.and_one_is_mod]

/-- On in-range distances the zfill transpose agrees with its structured
form. -/
theorem transpose3_eq_rec (p : ℕ) :
    ∀ h, h < 2 ^ (3 * p) → transpose3 p h = transposeRec p h := by
  induction p with
  | zero =>
    intro h hh
    have h0 : h = 0 := by simpa using hh
    subst h0
    decide
  | succ q ih =>
    intro h hh
    have hz : zwidth (q + 1) h = 3 * (q + 1) := zwidth_eq (q + 1) h (by omega) hh
    have hdiv : h >>> 3 = h / 8 := by
      rw [Nat.shiftRight_eq_div_pow]
    have hq : h / 8 < 2 ^ (3 * q) := by
      have h8 : (2:ℕ) ^ (3 * (q + 1)) = 2 ^ (3 * q) * 8 := by
        rw [show 3 * (q + 1) = 3 * q + 3 by ring, pow_add]
        norm_num
      rw [Nat.div_lt_iff_lt_mul (by norm_num)]
      omega
    have b0 := sliceAux_bridge 0 (by omega) q h 0
    have b1 := sliceAux_bridge 1 (by omega) q h 0
    have b2 := sliceAux_bridge 2 (by omega) q h 0
    have ebit2 : (h >>> 2) &&& 1 = h / 4 % 2 := by rw [shiftRight_and_one]; norm_num
    have ebit1 : (h >>> 1) &&& 1 = h / 2 % 2 := by rw [shiftRight_and_one]; norm_num
    have ebit0 : (h >>> 0) &&& 1 = h % 2 := by rw [shiftRight_and_one]; norm_num
    rcases Nat.eq_zero_or_pos q with hq0 | hq1
    · subst hq0
      have z0 : ∀ i acc, sliceAux (h / 8) (3 * 0) i acc = acc := by
        intro i acc
        rw [sliceAux_unfold, if_neg (by omega)]
      rw [transpose3, hz, b0, b1, b2, hdiv, z0, z0, z0]
      simp only [transposeRec]
      rw [show (2 - 0 : ℕ) = 2 by norm_num, show (2 - 1 : ℕ) = 1 by norm_num,
        show (2 - 2 : ℕ) = 0 by norm_num, ebit2, ebit1, ebit0]
    · have ihq := ih (h / 8) hq
      have hzq : zwidth q (h / 8) = 3 * q := zwidth_eq q (h / 8) hq1 hq
      rw [transpose3, hzq] at ihq
      have e0 : sliceAux (h / 8) (3 * q) 0 0 = (transposeRec q (h / 8)).1 := by
        rw [← ihq]
      have e1 : sliceAux (h / 8) (3 * q) 1 0 = (transposeRec q (h / 8)).2.1 := by
        rw [← ihq]
      have e2 : sliceAux (h / 8) (3 * q) 2 0 = (transposeRec q (h / 8)).2.2 := by
        rw [← ihq]
      rw [transpose3, hz, b0, b1, b2, hdiv, e0, e1, e2]
      simp only [transposeRec]
      rw [show (2 - 0 : ℕ) = 2 by norm_num, show (2 - 1 : ℕ) = 1 by norm_num,
        show (2 - 2 : ℕ) = 0 by norm_num, ebit2, ebit1, ebit0]

theorem transposeInv_leftInv (p : ℕ) :
    ∀ h, h < 2 ^ (3 * p) → transposeInv p (transposeRec p h) = h := by
  induction p with
  | zero => intro h hh; interval_cases h; rfl
  | succ q ih =>
    intro h hh
    have hq : h / 8 < 2 ^ (3 * q) := by
      rw [Nat.div_lt_iff_lt_mul (by norm_num)]
      calc h < 2 ^ (3 * (q + 1)) := hh
        _ = 2 ^ (3 * q) * 8 := by rw [show 3 * (q + 1) = 3 * q + 3 by ring, pow_add]; norm_num
    rw [transposeRec, transposeInv]
    have h4 : h / 4 % 2 < 2 := Nat.mod_lt _ (by norm_num)
    have h2 : h / 2 % 2 < 2 := Nat.mod_lt _ (by norm_num)
    have h1 : h % 2 < 2 := Nat.mod_lt _ (by norm_num)
    have d0 : (2 * (transposeRec q (h / 8)).1 + h / 4 % 2) / 2 =
        (transposeRec q (h / 8)).1 := by omega
    have d1 : (2 * (transposeRec q (h / 8)).2.1 + h / 2 % 2) / 2 =
        (transposeRec q (h / 8)).2.1 := by omega
    have d2 : (2 * (transposeRec q (h / 8)).2.2 + h % 2) / 2 =
        (transposeRec q (h / 8)).2.2 := by omega
    have m0 : (2 * (transposeRec q (h / 8)).1 + h / 4 % 2) % 2 = h / 4 % 2 := by omega
    have m1 : (2 * (transposeRec q (h / 8)).2.1 + h / 2 % 2) % 2 = h / 2 % 2 := by omega
    have m2 : (2 * (transposeRec q (h / 8)).2.2 + h % 2) % 2 = h % 2 := by omega
    simp only [d0, d1, d2, m0, m1, m2]
    rw [ih (h / 8) hq]
    omega

theorem transposeRec_lt (p : ℕ) :
    ∀ h, (transposeRec p h).1 < 2 ^ p ∧ (transposeRec p h).2.1 < 2 ^ p ∧
      (transposeRec p h).2.2 < 2 ^ p := by
  induction p with
  | zero => intro h; refine ⟨?_, ?_, ?_⟩ <;> simp [transposeRec]
  | succ q ih =>
    intro h
    obtain ⟨a, b, c⟩ := ih (h / 8)
    rw [transposeRec]
    refine ⟨?_, ?_, ?_⟩ <;>
      · simp only [pow_succ]
        omega

/-! ### Gray decode: injective and bound-preserving -/

theorem shiftRight_xor (a b k : ℕ) :
    (a ^^^ b) >>> k = (a >>> k) ^^^ (b >>> k) := by
  apply Nat.eq_of_testBit_eq
  intro i
  simp [Nat.testBit_shiftRight, Nat.testBit_xor]

theorem xor_rearrange {a b c d : ℕ} (h : a ^^^ b = c ^^^ d) :
    a ^^^ c = b ^^^ d := by
  apply Nat.eq_of_testBit_eq
  intro i
  have h' := congrArg (fun n => Nat.testBit n i) h
  simp only [Nat.testBit_xor] at h' ⊢
  cases ha : a.testBit i <;> cases hb : b.testBit i <;>
    cases hc : c.testBit i <;> cases hd : d.testBit i <;>
    rw [ha, hb, hc, hd] at h' <;> revert h' <;> decide

theorem grayDecode3_inj (v w : ℕ × ℕ × ℕ)
    (h : grayDecode3 v = grayDecode3 w) : v = w := by
  obtain ⟨a, b, c⟩ := v
  obtain ⟨x, y, z⟩ := w
  simp only [grayDecode3, Prod.mk.injEq] at h ⊢
  obtain ⟨h0, h1, h2⟩ := h
  have d1 : b ^^^ y = a ^^^ x := xor_rearrange h1
  have d2 : c ^^^ z = b ^^^ y := xor_rearrange h2
  have d0 : a ^^^ x = (c >>> 1) ^^^ (z >>> 1) := xor_rearrange h0
  have hdd : a ^^^ x = (a ^^^ x) >>> 1 := by
    conv_lhs => rw [d0]
    rw [← shiftRight_xor, d2, d1]
  have hzero : a ^^^ x = 0 := by
    rcases Nat.eq_zero_or_pos (a ^^^ x) with h' | h'
    · exact h'
    · exfalso
      have hlt : (a ^^^ x) >>> 1 < a ^^^ x := by
        rw [Nat.shiftRight_one]
        exact Nat.div_lt_self h' one_lt_two
      omega
  refine ⟨Nat.xor_eq_zero.mp hzero, Nat.xor_eq_zero.mp ?_, Nat.xor_eq_zero.mp ?_⟩
  · rw [d1]; exact hzero
  · rw [d2, d1]; exact hzero

theorem grayDecode3_bound (n : ℕ) (v : ℕ × ℕ × ℕ)
    (h1 : v.1 < 2 ^ n) (h2 : v.2.1 < 2 ^ n) (h3 : v.2.2 < 2 ^ n) :
    (grayDecode3 v).1 < 2 ^ n ∧ (grayDecode3 v).2.1 < 2 ^ n ∧
      (grayDecode3 v).2.2 < 2 ^ n := by
  have hsh : v.2.2 >>> 1 ≤ v.2.2 := by
    rw [Nat.shiftRight_one]
    exact Nat.div_le_self _ _
  exact ⟨Nat.xor_lt_two_pow h1 (lt_of_le_of_lt hsh h3),
    Nat.xor_lt_two_pow h2 h1, Nat.xor_lt_two_pow h3 h2⟩

/-! ### The undo loop is a composition of involutions -/

theorem two_pow_and_pred (k : ℕ) : (2 ^ k - 1) &&& 2 ^ k = 0 := by
  rw [Nat.and_comm, Nat.and_pow_two_sub_one_eq_mod]
  exact Nat.mod_self _

theorem and_xor_pred (k x : ℕ) :
    (x ^^^ (2 ^ k - 1)) &&& 2 ^ k = x &&& 2 ^ k := by
  rw [Nat.and_xor_distrib_right, two_pow_and_pred, Nat.xor_zero]

theorem and_and_pred (k z : ℕ) : (z &&& (2 ^ k - 1)) &&& 2 ^ k = 0 := by
  rw [Nat.and_assoc, two_pow_and_pred, Nat.and_zero]

theorem xor_xor_cancel (a b t : ℕ) : (a ^^^ t) ^^^ (b ^^^ t) = a ^^^ b := by
  rw [Nat.xor_assoc, Nat.xor_comm b t, Nat.xor_cancel_left]

theorem stepI_invol (k x0 xi : ℕ) :
    stepI (2 ^ k) (stepI (2 ^ k) x0 xi).1 (stepI (2 ^ k) x0 xi).2 = (x0, xi) := by
  by_cases hc : xi &&& 2 ^ k ≠ 0
  · have hin : stepI (2 ^ k) x0 xi = (x0 ^^^ (2 ^ k - 1), xi) := by
      rw [stepI, if_pos hc]
    rw [hin]
    show stepI (2 ^ k) (x0 ^^^ (2 ^ k - 1)) xi = (x0, xi)
    rw [stepI, if_pos hc, Nat.xor_cancel_right]
  · have hin : stepI (2 ^ k) x0 xi =
        (x0 ^^^ ((x0 ^^^ xi) &&& (2 ^ k - 1)),
          xi ^^^ ((x0 ^^^ xi) &&& (2 ^ k - 1))) := by
      rw [stepI, if_neg hc]
    rw [hin]
    show stepI (2 ^ k) (x0 ^^^ ((x0 ^^^ xi) &&& (2 ^ k - 1)))
      (xi ^^^ ((x0 ^^^ xi) &&& (2 ^ k - 1))) = (x0, xi)
    push_neg at hc
    have hc2 : ¬ ((xi ^^^ ((x0 ^^^ xi) &&& (2 ^ k - 1))) &&& 2 ^ k ≠ 0) := by
      push_neg
      rw [Nat.and_xor_distrib_right, and_and_pred, Nat.xor_zero, hc]
    rw [stepI, if_neg hc2, xor_xor_cancel, Nat.xor_cancel_right, Nat.xor_cancel_right]

theorem step0_eq (q a : ℕ) :
    step0 q a = if a &&& q ≠ 0 then a ^^^ (q - 1) else a := by
  rw [step0, stepI]
  by_cases hc : a &&& q ≠ 0
  · rw [if_pos hc, if_pos hc]
  · rw [if_neg hc, if_neg hc]
    show a ^^^ ((a ^^^ a) &&& (q - 1)) = a
    rw [Nat.xor_self, Nat.zero_and, Nat.xor_zero]

theorem step0_invol (k a : ℕ) : step0 (2 ^ k) (step0 (2 ^ k) a) = a := by
  rw [step0_eq, step0_eq]
  by_cases hc : a &&& 2 ^ k ≠ 0
  · rw [if_pos hc,
      if_pos (show (a ^^^ (2 ^ k - 1)) &&& 2 ^ k ≠ 0 by rw [and_xor_pred]; exact hc),
      Nat.xor_cancel_right]
  · rw [if_neg hc, if_neg hc]

/-- Inverse of one undo round: undo the `i = 0, 1, 2` steps in reverse. -/
def roundQinv (q : ℕ) (w : ℕ × ℕ × ℕ) : ℕ × ℕ × ℕ :=
  let a1 := step0 q w.1
  let r1 := stepI q a1 w.2.1
  let r2 := stepI q r1.1 w.2.2
  (r2.1, r1.2, r2.2)

theorem roundQinv_roundQ (k : ℕ) (v : ℕ × ℕ × ℕ) :
    roundQinv (2 ^ k) (roundQ (2 ^ k) v) = v := by
  obtain ⟨a, b, c⟩ := v
  have e1 := step0_invol k (stepI (2 ^ k) (stepI (2 ^ k) a c).1 b).1
  have e2 := stepI_invol k (stepI (2 ^ k) a c).1 b
  have e3 := stepI_invol k a c
  simp only [roundQ, roundQinv, e1, e2, e3]

/-- Inverse of the undo loop: rounds in decreasing order of `q`. -/
def undoLoopInv : ℕ → ℕ × ℕ × ℕ → ℕ × ℕ × ℕ
  | 0, w => w
  | k + 1, w => undoLoopInv k (roundQinv (2 ^ (k + 1)) w)

theorem undoLoopInv_undoLoop (k : ℕ) (v : ℕ × ℕ × ℕ) :
    undoLoopInv k (undoLoop k v) = v := by
  induction k with
  | zero => rfl
  | succ k ih =>
    rw [undoLoop, undoLoopInv, roundQinv_roundQ]
    exact ih

theorem stepI_bound (q n x0 xi : ℕ) (hq : q - 1 < 2 ^ n)
    (h0 : x0 < 2 ^ n) (hi : xi < 2 ^ n) :
    (stepI q x0 xi).1 < 2 ^ n ∧ (stepI q x0 xi).2 < 2 ^ n := by
  rw [stepI]
  by_cases hc : xi &&& q ≠ 0
  · rw [if_pos hc]
    exact ⟨Nat.xor_lt_two_pow h0 hq, hi⟩
  · rw [if_neg hc]
    have ht : (x0 ^^^ xi) &&& (q - 1) ≤ q - 1 := Nat.and_le_right
    exact ⟨Nat.xor_lt_two_pow h0 (lt_of_le_of_lt ht hq),
      Nat.xor_lt_two_pow hi (lt_of_le_of_lt ht hq)⟩

theorem step0_bound (q n a : ℕ) (hq : q - 1 < 2 ^ n) (ha : a < 2 ^ n) :
    step0 q a < 2 ^ n := by
  rw [step0_eq]
  by_cases hc : a &&& q ≠ 0
  · rw [if_pos hc]
    exact Nat.xor_lt_two_pow ha hq
  · rw [if_neg hc]
    exact ha

theorem roundQ_bound (q n : ℕ) (v : ℕ × ℕ × ℕ) (hq : q - 1 < 2 ^ n)
    (h1 : v.1 < 2 ^ n) (h2 : v.2.1 < 2 ^ n) (h3 : v.2.2 < 2 ^ n) :
    (roundQ q v).1 < 2 ^ n ∧ (roundQ q v).2.1 < 2 ^ n ∧
      (roundQ q v).2.2 < 2 ^ n := by
  obtain ⟨a, b, c⟩ := v
  obtain ⟨p1, p2⟩ := stepI_bound q n a c hq h1 h3
  obtain ⟨q1, q2⟩ := stepI_bound q n (stepI q a c).1 b hq p1 h2
  exact ⟨step0_bound q n _ hq q1, q2, p2⟩

theorem undoLoop_bound (n : ℕ) :
    ∀ k v, k ≤ n → v.1 < 2 ^ n → v.2.1 < 2 ^ n → v.2.2 < 2 ^ n →
      (undoLoop k v).1 < 2 ^ n ∧ (undoLoop k v).2.1 < 2 ^ n ∧
        (undoLoop k v).2.2 < 2 ^ n := by
  intro k
  induction k with
  | zero => intro v _ h1 h2 h3; exact ⟨h1, h2, h3⟩
  | succ k ih =>
    intro v hk h1 h2 h3
    obtain ⟨u1, u2, u3⟩ := ih v (by omega) h1 h2 h3
    have hq : 2 ^ (k + 1) - 1 < 2 ^ n := by
      have : (2:ℕ) ^ (k + 1) ≤ 2 ^ n := Nat.pow_le_pow_right (by norm_num) hk
      have hpos : 0 < (2:ℕ) ^ (k + 1) := Nat.pos_pow_of_pos _ (by norm_num)
      omega
    rw [undoLoop]
    exact roundQ_bound (2 ^ (k + 1)) n _ hq u1 u2 u3

/-! ### `point_from_distance` is a bijection on in-range distances -/

theorem pointFromDistance_lt (p h : ℕ) (hh : h < (2 ^ p) ^ 3) :
    (pointFromDistance p h).1 < 2 ^ p ∧ (pointFromDistance p h).2.1 < 2 ^ p ∧
      (pointFromDistance p h).2.2 < 2 ^ p := by
  have hh' : h < 2 ^ (3 * p) := by
    rw [show 3 * p = p * 3 by ring, pow_mul]
    exact hh
  rw [pointFromDistance, transpose3_eq_rec p h hh']
  obtain ⟨t1, t2, t3⟩ := transposeRec_lt p h
  obtain ⟨g1, g2, g3⟩ := grayDecode3_bound p (transposeRec p h) t1 t2 t3
  exact undoLoop_bound p (p - 1) _ (by omega) g1 g2 g3

theorem pointFromDistance_inj (p h1 h2 : ℕ) (hh1 : h1 < (2 ^ p) ^ 3)
    (hh2 : h2 < (2 ^ p) ^ 3)
    (heq : pointFromDistance p h1 = pointFromDistance p h2) : h1 = h2 := by
  have hh1' : h1 < 2 ^ (3 * p) := by
    rw [show 3 * p = p * 3 by ring, pow_mul]; exact hh1
  have hh2' : h2 < 2 ^ (3 * p) := by
    rw [show 3 * p = p * 3 by ring, pow_mul]; exact hh2
  rw [pointFromDistance, pointFromDistance, transpose3_eq_rec p h1 hh1',
    transpose3_eq_rec p h2 hh2'] at heq
  have hud := congrArg (undoLoopInv (p - 1)) heq
  rw [undoLoopInv_undoLoop, undoLoopInv_undoLoop] at hud
  have htr := grayDecode3_inj _ _ hud
  calc h1 = transposeInv p (transposeRec p h1) := (transposeInv_leftInv p h1 hh1').symm
    _ = transposeInv p (transposeRec p h2) := by rw [htr]
    _ = h2 := transposeInv_leftInv p h2 hh2'

/-- **C6.** For every `nbins = 2^p`, the Hilbert curve-order traversal used
by `bin_particles_3d` (`point_from_distance` of `HilbertCurve(p, 3)`) is a
bijection between the curve distances `[0, nbins^3)` and the voxel
coordinates `[0, nbins)^3`: every voxel index appears exactly once. -/
theorem pointFromDistance_bijOn (p : ℕ) :
    Set.BijOn (pointFromDistance p) {h : ℕ | h < (2 ^ p) ^ 3}
      {v : ℕ × ℕ × ℕ | v.1 < 2 ^ p ∧ v.2.1 < 2 ^ p ∧ v.2.2 < 2 ^ p} := by
  refine ⟨?_, ?_, ?_⟩
  · intro h hh
    exact pointFromDistance_lt p h hh
  · intro h1 hh1 h2 hh2 heq
    exact pointFromDistance_inj p h1 h2 hh1 hh2 heq
  · intro v hv
    obtain ⟨hv1, hv2, hv3⟩ := hv
    have himg : (Finset.range ((2 ^ p) ^ 3)).image (pointFromDistance p) =
        Finset.range (2 ^ p) ×ˢ (Finset.range (2 ^ p) ×ˢ Finset.range (2 ^ p)) := by
      apply Finset.eq_of_subset_of_card_le
      · intro w hw
        obtain ⟨h, hh, hw'⟩ := Finset.mem_image.mp hw
        obtain ⟨w1, w2, w3⟩ := pointFromDistance_lt p h (Finset.mem_range.mp hh)
        rw [hw'] at w1 w2 w3
        simp only [Finset.mem_product, Finset.mem_range]
        exact ⟨w1, w2, w3⟩
      · have hcard : ((Finset.range ((2 ^ p) ^ 3)).image (pointFromDistance p)).card =
            (2 ^ p) ^ 3 := by
          rw [Finset.card_image_of_injOn, Finset.card_range]
          intro h1 hh1 h2 hh2 heq
          exact pointFromDistance_inj p h1 h2
            (Finset.mem_range.mp (Finset.mem_coe.mp hh1))
            (Finset.mem_range.mp (Finset.mem_coe.mp hh2)) heq
        rw [hcard, Finset.card_product, Finset.card_product, Finset.card_range]
        ring_nf
        omega
    have hvmem : v ∈ Finset.range (2 ^ p) ×ˢ (Finset.range (2 ^ p) ×ˢ Finset.range (2 ^ p)) := by
      simp only [Finset.mem_product, Finset.mem_range]
      exact ⟨hv1, hv2, hv3⟩
    rw [← himg] at hvmem
    obtain ⟨h, hh, hfv⟩ := Finset.mem_image.mp hvmem
    exact ⟨h, Finset.mem_range.mp hh, hfv⟩

/-! ## ComplexityEstimator (modelled from the spec, §4.3) -/

/-- Error signalled when a zero-length sequence reaches the estimator. -/
inductive EstError where
  | emptyInputError
  deriving DecidableEq

/-- Output of the factorizer: `{sequence_length, factor_count}`. -/
structure FactorizationResult where
  sequence_length : ℕ
  factor_count : ℕ
  deriving DecidableEq

/-- The factorization result of the greedy parse: `sequence_length = i_final`
and `factor_count` = number of factors emitted. -/
def factorizationResult (s : List ℕ) : FactorizationResult :=
  ⟨s.length, (factorize s).length⟩

/-- Modelled from the spec: `ComplexityEstimator.estimate` (performed by the
C++ tool `cpp/lz77/lz_entropy`, which is not part of the Python sources)
converts a factorization result into a CID value.  The exact bit-cost model
is an implementation parameter (`cost`), but a zero-length sequence signals
`EmptyInputError` rather than returning a numeric value (§4.3). -/
def estimate (cost : ℕ → ℕ → ℚ) (r : FactorizationResult) : Except EstError ℚ :=
  if r.sequence_length = 0 then Except.error EstError.emptyInputError
  else Except.ok (cost r.sequence_length r.factor_count)

/-- **C4.** A zero-length symbol sequence reaching the complexity
estimation step signals `EmptyInputError` rather than returning a numeric
CID value, whatever bit-cost model is used. -/
theorem estimate_empty (cost : ℕ → ℕ → ℚ) (s : List ℕ) (h : s.length = 0) :
    estimate cost (factorizationResult s) = Except.error EstError.emptyInputError := by
  rw [estimate]
  rw [if_pos (show (factorizationResult s).sequence_length = 0 from h)]

/-- Witness for C4: the empty sequence. -/
theorem estimate_empty_witness :
    estimate (fun _ _ => 0) (factorizationResult []) =
      Except.error EstError.emptyInputError :=
  estimate_empty (fun _ _ => 0) [] rfl

/-! ## SpatialBinner: `bin_particles_3d` (binning.py) -/

/-- A particle row `[type, x, y, z]`; real coordinates are modelled as exact
rationals. -/
structure Particle where
  ptype : ℚ
  x : ℚ
  y : ℚ
  z : ℚ
  deriving DecidableEq

/-- Errors that can surface from `bin_particles_3d`: `configError` is the
validation failure the specification prescribes for a non-power-of-two
`nbins`; `indexError` models a NumPy out-of-range index on the histogram. -/
inductive BinError where
  | configError
  | indexError
  deriving DecidableEq

/-- `np.histogramdd` bin index of value `v` on one axis, with `n` equal-width
bins over `(0, B)`: half-open bins `[e_k, e_{k+1})`, except that the
rightmost edge belongs to the last bin; values outside `[0, B]` are dropped
(`none`). -/
def binIdx (n : ℕ) (B v : ℚ) : Option ℕ :=
  if v < 0 ∨ B < v then none
  else if v = B then some (n - 1)
  else some (Int.toNat ⌊v * n / B⌋)

/-- Joint three-axis bin of a particle: `some` iff all three coordinates are
in range, mirroring `np.histogramdd` dropping the whole sample otherwise. -/
def binTriple (n : ℕ) (B : ℚ) (pt : Particle) : Option (ℕ × ℕ × ℕ) :=
  match binIdx n B pt.x, binIdx n B pt.y, binIdx n B pt.z with
  | some a, some b, some c => some (a, b, c)
  | _, _, _ => none

/-- Occupancy count of voxel `v`: the number of particles binned to it. -/
def histCount (pts : List Particle) (n : ℕ) (B : ℚ) (v : ℕ × ℕ × ℕ) : ℕ :=
  (pts.filter (fun pt => decide (binTriple n B pt = some v))).length

/-- `int(np.log2(m) )` for positive integer `m`: floor of the base-2
logarithm, with a structural fuel argument. -/
def log2Go : ℕ → ℕ → ℕ
  | 0, _ => 0
  | fuel + 1, n => if 2 ≤ n then log2Go fuel (n / 2) + 1 else 0

/-- Floor of the base-2 logarithm. -/
def log2n (n : ℕ) : ℕ := log2Go n n

/-- Checked curve-order readout of the histogram: NumPy raises an index
error at the first (leftmost) out-of-range voxel coordinate. -/
def lookups (histo : ℕ × ℕ × ℕ → ℕ) (nbins : ℕ) :
    List (ℕ × ℕ × ℕ) → Except BinError (List ℕ)
  | [] => Except.ok []
  | v :: rest =>
    if v.1 < nbins ∧ v.2.1 < nbins ∧ v.2.2 < nbins then
      Except.map (fun l => histo v :: l) (lookups histo nbins rest)
    else Except.error BinError.indexError

/-- Embedding of `bin_particles_3d`: build the 3-D histogram over
`[0, box_size]^3`, compute the curve order `p = int(np.log2(nbins**2)/2)`
(`int(...)` floors; exact for the power-of-two `nbins` the routine is
written for), walk all `nbins^3` curve distances through
`point_from_distance`, read the histogram at each 3-D coordinate, and join
the decimal digit strings of the counts.  The source performs no validation
of `nbins`, so no path produces `configError`. -/
def binParticles3d (pts : List Particle) (nbins : ℕ) (B : ℚ) :
    Except BinError (List Char) :=
  Except.map (fun counts => (counts.map (fun c => Nat.toDigits 10 c)).flatten)
    (lookups (histCount pts nbins B) nbins
      ((List.range (nbins ^ 3)).map (pointFromDistance (log2n (nbins ^ 2) / 2))))

/-! ### C3: no power-of-two validation, no `ConfigError` -/

/-- **C3.** Contrary to the claim, `bin_particles_3d` performs no
power-of-two validation and cannot raise `ConfigError` (no such error
exists in the repository).  At the non-power-of-two `nbins = 3` it computes
curve order `p = int(log2(9)/2) = 1` and proceeds to the traversal, which
fails with an out-of-range index error (voxel coordinate `(3,3,0)` at curve
distance 9 exceeds the 3-bin grid), not with `ConfigError`. -/
theorem binParticles3d_nbins3_indexError :
    binParticles3d [] 3 75 = Except.error BinError.indexError ∧
      (Except.error BinError.indexError : Except BinError (List Char)) ≠
        Except.error BinError.configError := by
  refine ⟨rfl, fun hc => ?_⟩
  cases Except.error.inj hc

/-! ### C7: determinism -/

/-- **C7.** `bin_particles_3d` is deterministic: it is a pure function of
the triple `(points, nbins, box_size)` — the embedding of the source
contains no ambient state, randomness or I/O — so any two calls on equal
inputs return byte-identical sequences. -/
theorem binParticles3d_deterministic (pts₁ pts₂ : List Particle)
    (n₁ n₂ : ℕ) (B₁ B₂ : ℚ) (hp : pts₁ = pts₂) (hn : n₁ = n₂) (hB : B₁ = B₂) :
    binParticles3d pts₁ n₁ B₁ = binParticles3d pts₂ n₂ B₂ := by
  rw [hp, hn, hB]

/-- Witness for C7 at a concrete repeated call. -/
theorem binParticles3d_deterministic_witness :
    binParticles3d [⟨1, 1, 1, 1⟩] 2 1 = binParticles3d [⟨1, 1, 1, 1⟩] 2 1 :=
  binParticles3d_deterministic [⟨1, 1, 1, 1⟩] [⟨1, 1, 1, 1⟩] 2 2 1 1 rfl rfl rfl

/-! ### C2: output length -/

/-- Ten particles in the same voxel: all sit at the box corner `(1, 1, 1)`
of a unit box (the rightmost edge belongs to the last bin). -/
def tenPts : List Particle :=
  [⟨1, 1, 1, 1⟩, ⟨1, 1, 1, 1⟩, ⟨1, 1, 1, 1⟩, ⟨1, 1, 1, 1⟩, ⟨1, 1, 1, 1⟩,
   ⟨1, 1, 1, 1⟩, ⟨1, 1, 1, 1⟩, ⟨1, 1, 1, 1⟩, ⟨1, 1, 1, 1⟩, ⟨1, 1, 1, 1⟩]

/-- **C2 fails as stated**: with the power-of-two `nbins = 2`, the positive
`box_size = 1` and ten particles in one voxel, the returned string has 9
characters (the occupancy count 10 takes two decimal digits), not
`nbins^3 = 8`. -/
theorem binParticles3d_length_cex :
    binParticles3d tenPts 2 1 =
      Except.ok ['0', '0', '0', '0', '0', '1', '0', '0', '0'] ∧
      (['0', '0', '0', '0', '0', '1', '0', '0', '0'] : List Char).length ≠ 2 ^ 3 :=
  ⟨rfl, by decide⟩

theorem log2Go_two_pow : ∀ k fuel, 2 ^ k ≤ fuel → log2Go fuel (2 ^ k) = k := by
  intro k
  induction k with
  | zero =>
    intro fuel hf
    obtain ⟨f, rfl⟩ : ∃ f, fuel = f + 1 := ⟨fuel - 1, by omega⟩
    rw [log2Go, pow_zero, if_neg (by norm_num)]
  | succ k ih =>
    intro fuel hf
    have hk1 : (1:ℕ) ≤ 2 ^ k := Nat.one_le_two_pow
    have hks : (2:ℕ) ^ (k + 1) = 2 ^ k * 2 := pow_succ 2 k
    obtain ⟨f, rfl⟩ : ∃ f, fuel = f + 1 := ⟨fuel - 1, by omega⟩
    rw [log2Go, if_pos (by omega)]
    rw [hks, show 2 ^ k * 2 / 2 = 2 ^ k by omega]
    rw [ih f (by omega)]

/-- The curve order computed for a power-of-two bin count is exact. -/
theorem log2n_two_pow (k : ℕ) : log2n (2 ^ k) = k :=
  log2Go_two_pow k (2 ^ k) le_rfl

theorem lookups_ok (histo : ℕ × ℕ × ℕ → ℕ) (nbins : ℕ) :
    ∀ l : List (ℕ × ℕ × ℕ),
      (∀ v ∈ l, v.1 < nbins ∧ v.2.1 < nbins ∧ v.2.2 < nbins) →
      lookups histo nbins l = Except.ok (l.map histo) := by
  intro l
  induction l with
  | nil => intro _; rfl
  | cons v rest ih =>
    intro hmem
    rw [lookups, if_pos (hmem v (List.mem_cons_self v rest)),
      ih (fun w hw => hmem w (List.mem_cons_of_mem v hw))]
    rfl

theorem toDigits_len_one (c : ℕ) (hc : c ≤ 9) : (Nat.toDigits 10 c).length = 1 := by
  interval_cases c <;> rfl

theorem flatten_digit_length :
    ∀ cs : List ℕ, (∀ c ∈ cs, c ≤ 9) →
      ((cs.map (fun c => Nat.toDigits 10 c)).flatten).length = cs.length := by
  intro cs
  induction cs with
  | nil => intro _; rfl
  | cons c cs ih =>
    intro hmem
    rw [List.map_cons, List.flatten_cons, List.length_append,
      toDigits_len_one c (hmem c (List.mem_cons_self c cs)),
      ih (fun d hd => hmem d (List.mem_cons_of_mem c hd)), List.length_cons]
    omega

/-- **C2 (amended).** For every `PointCloud`, every power-of-two `nbins`
and every positive `box_size`, *provided every voxel occupancy count fits a
single decimal digit* (count ≤ 9), the string returned by
`bin_particles_3d` has length exactly `nbins^3` — one symbol per voxel.
(The unamended claim fails because a count ≥ 10 contributes more than one
character, see the counterexample.) -/
theorem binParticles3d_length (p : ℕ) (pts : List Particle) (B : ℚ)
    (hB : 0 < B) (hsmall : ∀ v, histCount pts (2 ^ p) B v ≤ 9) :
    ∃ out, binParticles3d pts (2 ^ p) B = Except.ok out ∧
      out.length = (2 ^ p) ^ 3 := by
  have hord : log2n ((2 ^ p) ^ 2) / 2 = p := by
    rw [← pow_mul, log2n_two_pow]
    omega
  rw [binParticles3d, hord]
  have hlist : ∀ v ∈ (List.range ((2 ^ p) ^ 3)).map (pointFromDistance p),
      v.1 < 2 ^ p ∧ v.2.1 < 2 ^ p ∧ v.2.2 < 2 ^ p := by
    intro v hv
    obtain ⟨h, hh, hv'⟩ := List.mem_map.mp hv
    subst hv'
    exact pointFromDistance_lt p h (List.mem_range.mp hh)
  rw [lookups_ok _ _ _ hlist]
  refine ⟨_, rfl, ?_⟩
  rw [flatten_digit_length _ ?_, List.length_map, List.length_map,
    List.length_range]
  intro c hc
  obtain ⟨v, _, hv'⟩ := List.mem_map.mp hc
  subst hv'
  exact hsmall v

/-- Witness for the amended C2: the empty point cloud, `nbins = 2`,
`box_size = 1`; every count is 0 ≤ 9 and the output has `2^3 = 8` symbols. -/
theorem binParticles3d_length_witness :
    ∃ out, binParticles3d [] (2 ^ 1) 1 = Except.ok out ∧
      out.length = (2 ^ 1) ^ 3 :=
  binParticles3d_length 1 [] 1 (by decide)
    (fun v => by simp [histCount])

/-! ### C8: which particles are counted -/

/-- Membership in the closed box `[0, box_size]^3` — the exact set of
particles `np.histogramdd` counts (the rightmost edge is included in the
last bin). -/
def inClosedBox (B : ℚ) (pt : Particle) : Prop :=
  0 ≤ pt.x ∧ pt.x ≤ B ∧ 0 ≤ pt.y ∧ pt.y ≤ B ∧ 0 ≤ pt.z ∧ pt.z ≤ B

instance (B : ℚ) (pt : Particle) : Decidable (inClosedBox B pt) := by
  unfold inClosedBox
  infer_instance

theorem binIdx_none_iff (n : ℕ) (B v : ℚ) :
    binIdx n B v = none ↔ (v < 0 ∨ B < v) := by
  rw [binIdx]
  by_cases h1 : v < 0 ∨ B < v
  · rw [if_pos h1]
    exact ⟨fun _ => h1, fun _ => rfl⟩
  · rw [if_neg h1]
    by_cases h2 : v = B
    · rw [if_pos h2]
      exact ⟨fun hc => Option.noConfusion hc, fun hc => absurd hc h1⟩
    · rw [if_neg h2]
      exact ⟨fun hc => Option.noConfusion hc, fun hc => absurd hc h1⟩

theorem binIdx_lt (n : ℕ) (B v : ℚ) (hn : 0 < n) (hB : 0 < B) (k : ℕ)
    (h : binIdx n B v = some k) : k < n := by
  rw [binIdx] at h
  by_cases h1 : v < 0 ∨ B < v
  · rw [if_pos h1] at h
    cases h
  · rw [if_neg h1] at h
    by_cases h2 : v = B
    · rw [if_pos h2] at h
      have hk : n - 1 = k := Option.some.inj h
      omega
    · rw [if_neg h2] at h
      have hk : Int.toNat ⌊v * n / B⌋ = k := Option.some.inj h
      push_neg at h1
      have hvB : v < B := lt_of_le_of_ne h1.2 h2
      have hnq : (0:ℚ) < n := Nat.cast_pos.mpr hn
      have hflt : ⌊v * n / B⌋ < (n : ℤ) := by
        rw [Int.floor_lt]
        push_cast
        rw [div_lt_iff₀ hB]
        calc v * n < B * n := mul_lt_mul_of_pos_right hvB hnq
          _ = n * B := mul_comm _ _
      omega

theorem binTriple_some_of (n : ℕ) (B : ℚ) (pt : Particle)
    (h : inClosedBox B pt) : ∃ t, binTriple n B pt = some t := by
  obtain ⟨hx0, hxB, hy0, hyB, hz0, hzB⟩ := h
  have hx : binIdx n B pt.x ≠ none := by
    rw [Ne, binIdx_none_iff]
    push_neg
    exact ⟨hx0, hxB⟩
  have hy : binIdx n B pt.y ≠ none := by
    rw [Ne, binIdx_none_iff]
    push_neg
    exact ⟨hy0, hyB⟩
  have hz : binIdx n B pt.z ≠ none := by
    rw [Ne, binIdx_none_iff]
    push_neg
    exact ⟨hz0, hzB⟩
  obtain ⟨a, ha⟩ := Option.ne_none_iff_exists'.mp hx
  obtain ⟨b, hb⟩ := Option.ne_none_iff_exists'.mp hy
  obtain ⟨c, hc⟩ := Option.ne_none_iff_exists'.mp hz
  refine ⟨(a, b, c), ?_⟩
  rw [binTriple, ha, hb, hc]

theorem inClosedBox_of_binTriple (n : ℕ) (B : ℚ) (pt : Particle)
    (t : ℕ × ℕ × ℕ) (h : binTriple n B pt = some t) : inClosedBox B pt := by
  have hcoord : ∀ v : ℚ, binIdx n B v ≠ none → 0 ≤ v ∧ v ≤ B := by
    intro v hv
    rw [Ne, binIdx_none_iff] at hv
    push_neg at hv
    exact hv
  cases hx : binIdx n B pt.x with
  | none => rw [binTriple, hx] at h; cases h
  | some a =>
    cases hy : binIdx n B pt.y with
    | none => rw [binTriple, hx, hy] at h; cases h
    | some b =>
      cases hz : binIdx n B pt.z with
      | none => rw [binTriple, hx, hy, hz] at h; cases h
      | some c =>
        obtain ⟨hx1, hx2⟩ := hcoord pt.x (by rw [hx]; exact fun hc => Option.noConfusion hc)
        obtain ⟨hy1, hy2⟩ := hcoord pt.y (by rw [hy]; exact fun hc => Option.noConfusion hc)
        obtain ⟨hz1, hz2⟩ := hcoord pt.z (by rw [hz]; exact fun hc => Option.noConfusion hc)
        exact ⟨hx1, hx2, hy1, hy2, hz1, hz2⟩

theorem binTriple_lt (n : ℕ) (B : ℚ) (pt : Particle) (t : ℕ × ℕ × ℕ)
    (hn : 0 < n) (hB : 0 < B) (h : binTriple n B pt = some t) :
    t.1 < n ∧ t.2.1 < n ∧ t.2.2 < n := by
  cases hx : binIdx n B pt.x with
  | none => rw [binTriple, hx] at h; cases h
  | some a =>
    cases hy : binIdx n B pt.y with
    | none => rw [binTriple, hx, hy] at h; cases h
    | some b =>
      cases hz : binIdx n B pt.z with
      | none => rw [binTriple, hx, hy, hz] at h; cases h
      | some c =>
        rw [binTriple, hx, hy, hz] at h
        have ht : (a, b, c) = t := Option.some.inj h
        subst ht
        exact ⟨binIdx_lt n B pt.x hn hB a hx, binIdx_lt n B pt.y hn hB b hy,
          binIdx_lt n B pt.z hn hB c hz⟩

theorem histCount_cons (pt : Particle) (pts : List Particle) (n : ℕ) (B : ℚ)
    (v : ℕ × ℕ × ℕ) :
    histCount (pt :: pts) n B v =
      (if binTriple n B pt = some v then 1 else 0) + histCount pts n B v := by
  rw [histCount, histCount, List.filter_cons]
  by_cases hb : binTriple n B pt = some v
  · rw [decide_eq_true hb, if_pos rfl, if_pos hb, List.length_cons]
    omega
  · rw [decide_eq_false hb, if_neg (by simp), if_neg hb]
    omega

/-- **C8 (amended).** In `bin_particles_3d`, a particle is counted exactly
when all three of its coordinates lie in the *closed* interval
`[0, box_size]` (NumPy includes the rightmost bin edge in the last bin);
particles outside are dropped without an error.  Equivalently, the sum of
all `nbins^3` occupancy counts equals the number of particles whose three
coordinates all lie in `[0, box_size]`.  (The unamended claim — with the
half-open interval `[0, box_size)` — fails at a particle sitting exactly on
the upper edge, see the counterexample.) -/
theorem histCount_total (pts : List Particle) (n : ℕ) (B : ℚ)
    (hn : 0 < n) (hB : 0 < B) :
    (∑ v ∈ Finset.range n ×ˢ (Finset.range n ×ˢ Finset.range n),
        histCount pts n B v) =
      (pts.filter (fun pt => decide (inClosedBox B pt))).length := by
  induction pts with
  | nil => simp [histCount]
  | cons pt pts ih =>
    rw [Finset.sum_congr rfl (fun v _ => histCount_cons pt pts n B v),
      Finset.sum_add_distrib, ih, List.filter_cons]
    by_cases hin : inClosedBox B pt
    · obtain ⟨t, ht⟩ := binTriple_some_of n B pt hin
      obtain ⟨ht1, ht2, ht3⟩ := binTriple_lt n B pt t hn hB ht
      have hsum1 : (∑ v ∈ Finset.range n ×ˢ (Finset.range n ×ˢ Finset.range n),
          if binTriple n B pt = some v then 1 else 0) = 1 := by
        simp only [ht, Option.some.injEq]
        rw [Finset.sum_ite_eq]
        rw [if_pos]
        simp only [Finset.mem_product, Finset.mem_range]
        exact ⟨ht1, ht2, ht3⟩
      rw [hsum1, if_pos (by simpa using hin), List.length_cons]
      omega
    · have hnone : binTriple n B pt = none := by
        cases hopt : binTriple n B pt with
        | none => rfl
        | some t => exact absurd (inClosedBox_of_binTriple n B pt t hopt) hin
      have hsum0 : (∑ v ∈ Finset.range n ×ˢ (Finset.range n ×ˢ Finset.range n),
          if binTriple n B pt = some v then 1 else 0) = 0 := by
        rw [hnone]
        simp
      rw [hsum0, if_neg (by simpa using hin)]
      omega

/-- Witness for the amended C8: one particle on the closed boundary of a
unit box with `nbins = 2`; the total count and the closed-box filter both
equal 1. -/
theorem histCount_total_witness :
    (∑ v ∈ Finset.range 2 ×ˢ (Finset.range 2 ×ˢ Finset.range 2),
        histCount [⟨0, 1, 1, 1⟩] 2 1 v) =
      (([⟨0, 1, 1, 1⟩] : List Particle).filter
        (fun pt => decide (inClosedBox 1 pt))).length :=
  histCount_total [⟨0, 1, 1, 1⟩] 2 1 (by decide) (by decide)

/-- **C8 fails as stated**: the particle `(1, 1, 1)` has all coordinates
outside the half-open range `[0, 1)` of a unit box, yet it contributes to
the occupancy count of voxel `(1, 1, 1)` (NumPy places values equal to the
rightmost edge in the last bin), so the sum of all counts (= 1) differs
from the number of particles inside `[0, 1)^3` (= 0). -/
theorem histCount_range_cex :
    histCount [⟨0, 1, 1, 1⟩] 2 1 (1, 1, 1) = 1 ∧
      (([⟨0, 1, 1, 1⟩] : List Particle).filter
        (fun pt => decide (0 ≤ pt.x ∧ pt.x < 1 ∧ 0 ≤ pt.y ∧ pt.y < 1 ∧
          0 ≤ pt.z ∧ pt.z < 1))).length = 0 := by
  constructor
  · rfl
  · rfl

/-! ## NormalizationHarness: `compute_normalized_cid` (lz_entropy.py)

The harness computes the CID of the input and of `n_shuffles` permutations
of it.  The CID of one byte string is produced by the external C++ tool, so
it enters the embedding as an opaque parameter `cidf`; likewise `np.std` is
the parameter `stdFn` (its value is pinned by the code only for
`n_shuffles ≤ 1`).  `np.random.permutation` copies the array and performs a
Fisher–Yates shuffle (`i = n-1, …, 1`, draw `j ∈ [0, i]`, swap); the random
draws enter as an explicit stream, one list per trial. -/

/-- Swap the entries at positions `i` and `j` of a list. -/
def swapL (l : List ℕ) (i j : ℕ) : List ℕ :=
  (l.set i (l.getD j 0)).set j (l.getD i 0)

/-- Fisher–Yates walk of `np.random.shuffle`: at position `i ≥ 1` swap with
a drawn index `j ∈ [0, i]`, then continue at `i - 1`. -/
def fisherYates : List ℕ → List ℕ → ℕ → List ℕ
  | _, l, 0 => l
  | rands, l, i + 1 =>
    fisherYates rands.tail (swapL l (i + 1) (rands.headD 0 % (i + 2))) i

/-- `np.random.permutation`: shuffle a copy of the array. -/
def npPermutation (rands : List ℕ) (l : List ℕ) : List ℕ :=
  fisherYates rands l (l.length - 1)

/-- `np.mean` of a list of floats; the mean of the empty list is NaN,
modelled as `none` (every ordered comparison against NaN is false). -/
def npMean (l : List ℚ) : Option ℚ :=
  if l.isEmpty then none else some (l.sum / l.length)

/-- The `if cid_shuffled_mean > 0` branch of `compute_normalized_cid`,
returning `(cid_normalized, compression_gain)`; a NaN mean (`none`) fails
the comparison and takes the fallback branch. -/
def normPair (cid_orig : ℚ) : Option ℚ → ℚ × ℚ
  | some mv => if 0 < mv then (cid_orig / mv, 1 - cid_orig / mv) else (1, 0)
  | none => (1, 0)

/-- The `n_shuffles` shuffled trial sequences: trial `k` permutes the input
with the `k`-th random stream. -/
def shuffledTrials (data : List ℕ) (n_shuffles : ℕ)
    (randss : List (List ℕ)) : List (List ℕ) :=
  (List.range n_shuffles).map (fun k => npPermutation (randss.getD k []) data)

/-- Result dictionary of `compute_normalized_cid`. -/
structure NormalizedResult where
  cid : ℚ
  cid_shuffled : Option ℚ
  cid_shuffled_std : ℚ
  cid_normalized : ℚ
  compression_gain : ℚ

/-- Embedding of `compute_normalized_cid`: CID of the original, CIDs of the
shuffled trials, their mean, the guarded normalization and the gain;
`np.std` is only taken when `n_shuffles > 1`, else the field is `0.0`. -/
def computeNormalizedCid (cidf : List ℕ → ℚ) (stdFn : List ℚ → ℚ)
    (data : List ℕ) (n_shuffles : ℕ) (randss : List (List ℕ)) :
    NormalizedResult :=
  { cid := cidf data
    cid_shuffled := npMean ((shuffledTrials data n_shuffles randss).map cidf)
    cid_shuffled_std :=
      if 1 < n_shuffles then stdFn ((shuffledTrials data n_shuffles randss).map cidf)
      else 0
    cid_normalized :=
      (normPair (cidf data) (npMean ((shuffledTrials data n_shuffles randss).map cidf))).1
    compression_gain :=
      (normPair (cidf data) (npMean ((shuffledTrials data n_shuffles randss).map cidf))).2 }

/-! ### C9: every shuffled trial is a permutation of the input -/

theorem cons_getD_set_perm : ∀ (t : List ℕ) (j a : ℕ), j < t.length →
    List.Perm (t.getD j 0 :: t.set j a) (a :: t) := by
  intro t
  induction t with
  | nil => intro j a hj; simp at hj
  | cons x t ih =>
    intro j a hj
    match j with
    | 0 =>
      show List.Perm (x :: a :: t) (a :: x :: t)
      exact List.Perm.swap a x t
    | j' + 1 =>
      show List.Perm (t.getD j' 0 :: x :: t.set j' a) (a :: x :: t)
      exact (List.Perm.swap x (t.getD j' 0) (t.set j' a)).trans
        (((ih j' a (by simpa using hj)).cons x).trans (List.Perm.swap a x t))

theorem swapL_perm : ∀ (l : List ℕ) (i j : ℕ), i < l.length → j < l.length →
    List.Perm (swapL l i j) l := by
  intro l
  induction l with
  | nil => intro i j hi _; simp at hi
  | cons a t ih =>
    intro i j hi hj
    match i, j with
    | 0, 0 =>
      exact List.Perm.refl _
    | 0, j' + 1 =>
      show List.Perm (t.getD j' 0 :: t.set j' a) (a :: t)
      exact cons_getD_set_perm t j' a (by simpa using hj)
    | i' + 1, 0 =>
      show List.Perm (t.getD i' 0 :: t.set i' a) (a :: t)
      exact cons_getD_set_perm t i' a (by simpa using hi)
    | i' + 1, j' + 1 =>
      show List.Perm (a :: swapL t i' j') (a :: t)
      exact (ih i' j' (by simpa using hi) (by simpa using hj)).cons a

theorem fisherYates_perm : ∀ (i : ℕ) (rands l : List ℕ), i < l.length →
    List.Perm (fisherYates rands l i) l := by
  intro i
  induction i with
  | zero => intro rands l _; exact List.Perm.refl _
  | succ i ih =>
    intro rands l hi
    rw [fisherYates]
    have hj : rands.headD 0 % (i + 2) < l.length := by
      have : rands.headD 0 % (i + 2) < i + 2 := Nat.mod_lt _ (by omega)
      omega
    have hswap : List.Perm (swapL l (i + 1) (rands.headD 0 % (i + 2))) l :=
      swapL_perm l (i + 1) _ hi hj
    have hlen : (swapL l (i + 1) (rands.headD 0 % (i + 2))).length = l.length := by
      rw [swapL, List.length_set, List.length_set]
    exact (ih rands.tail _ (by omega)).trans hswap

theorem npPermutation_perm (rands l : List ℕ) :
    List.Perm (npPermutation rands l) l := by
  cases l with
  | nil => exact List.Perm.refl _
  | cons a t =>
    exact fisherYates_perm ((a :: t).length - 1) rands (a :: t) (by simp)

/-- **C9.** Every one of the `n_shuffles` shuffled trials of
`compute_normalized_cid` is computed from a permutation of the input
sequence, so each shuffled sequence has the identical symbol frequency
histogram (multiset of symbols) as the original input. -/
theorem shuffledTrials_perm (data : List ℕ) (n_shuffles : ℕ)
    (randss : List (List ℕ)) (s : List ℕ)
    (hs : s ∈ shuffledTrials data n_shuffles randss) :
    Multiset.ofList s = Multiset.ofList data := by
  rw [shuffledTrials] at hs
  obtain ⟨k, _, hk⟩ := List.mem_map.mp hs
  subst hk
  exact Multiset.coe_eq_coe.mpr (npPermutation_perm (randss.getD k []) data)

/-- Witness for C9: one trial on `[1, 2]` whose draw actually swaps the two
symbols. -/
theorem shuffledTrials_perm_witness :
    Multiset.ofList [2, 1] = Multiset.ofList [1, 2] :=
  shuffledTrials_perm [1, 2] 1 [[0]] [2, 1] (by decide)

/-! ### C1 and C10: the normalization arithmetic -/

/-- **C1.** For every non-empty input and `n_shuffles ≥ 1`,
`compute_normalized_cid` returns
`cid_normalized = cid / cid_shuffled_mean` when `cid_shuffled_mean > 0` and
`cid_normalized = 1.0` otherwise, and in every case the returned
`compression_gain` equals `1 - cid_normalized` — whatever values the
external CID tool and the random draws produce. -/
theorem computeNormalizedCid_spec (cidf : List ℕ → ℚ) (stdFn : List ℚ → ℚ)
    (data : List ℕ) (n_shuffles : ℕ) (randss : List (List ℕ))
    (hd : data ≠ []) (hn : 1 ≤ n_shuffles) :
    ∃ mv, (computeNormalizedCid cidf stdFn data n_shuffles randss).cid_shuffled
        = some mv ∧
      (computeNormalizedCid cidf stdFn data n_shuffles randss).cid_normalized
        = (if 0 < mv
            then (computeNormalizedCid cidf stdFn data n_shuffles randss).cid / mv
            else 1) ∧
      (computeNormalizedCid cidf stdFn data n_shuffles randss).compression_gain
        = 1 - (computeNormalizedCid cidf stdFn data n_shuffles randss).cid_normalized := by
  have hlen : ((shuffledTrials data n_shuffles randss).map cidf).length = n_shuffles := by
    rw [List.length_map, shuffledTrials, List.length_map, List.length_range]
  have hne : ((shuffledTrials data n_shuffles randss).map cidf).isEmpty = false := by
    cases hc : (shuffledTrials data n_shuffles randss).map cidf with
    | nil => rw [hc] at hlen; simp at hlen; omega
    | cons a t => rfl
  have hmean : npMean ((shuffledTrials data n_shuffles randss).map cidf) =
      some (((shuffledTrials data n_shuffles randss).map cidf).sum /
        ((shuffledTrials data n_shuffles randss).map cidf).length) := by
    rw [npMean, if_neg (by rw [hne]; exact fun hc => Bool.noConfusion hc)]
  refine ⟨((shuffledTrials data n_shuffles randss).map cidf).sum /
    ((shuffledTrials data n_shuffles randss).map cidf).length, hmean, ?_, ?_⟩
  · show (normPair (cidf data)
        (npMean ((shuffledTrials data n_shuffles randss).map cidf))).1 = _
    rw [hmean, normPair]
    by_cases hpos : 0 < ((shuffledTrials data n_shuffles randss).map cidf).sum /
        ((shuffledTrials data n_shuffles randss).map cidf).length
    · rw [if_pos hpos, if_pos hpos]
      rfl
    · rw [if_neg hpos, if_neg hpos]
  · show (normPair (cidf data)
        (npMean ((shuffledTrials data n_shuffles randss).map cidf))).2 =
      1 - (normPair (cidf data)
        (npMean ((shuffledTrials data n_shuffles randss).map cidf))).1
    rw [hmean, normPair]
    by_cases hpos : 0 < ((shuffledTrials data n_shuffles randss).map cidf).sum /
        ((shuffledTrials data n_shuffles randss).map cidf).length
    · rw [if_pos hpos]
    · rw [if_neg hpos]
      norm_num

/-- Witness for C1 at a concrete instantiation. -/
theorem computeNormalizedCid_spec_witness :
    ∃ mv, (computeNormalizedCid (fun _ => 1) (fun _ => 0) [1] 1 [[]]).cid_shuffled
        = some mv ∧
      (computeNormalizedCid (fun _ => 1) (fun _ => 0) [1] 1 [[]]).cid_normalized
        = (if 0 < mv
            then (computeNormalizedCid (fun _ => 1) (fun _ => 0) [1] 1 [[]]).cid / mv
            else 1) ∧
      (computeNormalizedCid (fun _ => 1) (fun _ => 0) [1] 1 [[]]).compression_gain
        = 1 - (computeNormalizedCid (fun _ => 1) (fun _ => 0) [1] 1 [[]]).cid_normalized :=
  computeNormalizedCid_spec (fun _ => 1) (fun _ => 0) [1] 1 [[]]
    (by decide) le_rfl

/-- **C10.** With `n_shuffles = 0` (a value the configuration surface
admits), `compute_normalized_cid` performs no shuffled trials, the mean of
the empty trial list is NaN (modelled `none`) so the
`cid_shuffled_mean > 0` test fails, and the function returns
`cid_normalized = 1.0`, `compression_gain = 0.0` and
`cid_shuffled_std = 0.0`. -/
theorem computeNormalizedCid_zero_shuffles (cidf : List ℕ → ℚ)
    (stdFn : List ℚ → ℚ) (data : List ℕ) (randss : List (List ℕ)) :
    shuffledTrials data 0 randss = [] ∧
    (computeNormalizedCid cidf stdFn data 0 randss).cid_shuffled = none ∧
    (computeNormalizedCid cidf stdFn data 0 randss).cid_normalized = 1 ∧
    (computeNormalizedCid cidf stdFn data 0 randss).compression_gain = 0 ∧
    (computeNormalizedCid cidf stdFn data 0 randss).cid_shuffled_std = 0 := by
  have htr : shuffledTrials data 0 randss = [] := by
    rw [shuffledTrials]
    rfl
  refine ⟨htr, ?_, ?_, ?_, ?_⟩
  · show npMean ((shuffledTrials data 0 randss).map cidf) = none
    rw [htr]
    rfl
  · show (normPair (cidf data) (npMean ((shuffledTrials data 0 randss).map cidf))).1 = 1
    rw [htr]
    rfl
  · show (normPair (cidf data) (npMean ((shuffledTrials data 0 randss).map cidf))).2 = 0
    rw [htr]
    rfl
  · show (if 1 < 0 then stdFn ((shuffledTrials data 0 randss).map cidf) else 0) = 0
    rw [if_neg (by omega)]

end Kappa
